import Mathlib

/-!
Verification development for the MCTS core of the sound-law search engine.

The C++ sources (`node.hpp` and the node implementation translation unit,
the old `TreeNode.h`/`TreeNode.cpp` API and the Cython bridge) are shallowly
embedded here.  Floating point values (`float`) are modelled as exact
rationals `ℚ`; machine integers (`visit_t`, `long`, `int`) as `Int`, or as
`Nat` where the value is an index or a size.  `std::sqrt` is modelled by an
uninterpreted function parameter `sq : ℚ → ℚ` that is shared between the
embedded code and the spec-side formulas (its numeric value is irrelevant
to every claim settled below).  Fatal assertions are modelled by `Option`
results (`none` = the assertion fired).
-/

namespace ASLI

/-- The literal `1e-8` used throughout the C++ code, as an exact rational. -/
def eps : ℚ := 1 / 100000000

/-- The literal `-9999.9` used for pruned scores and `max_value` init. -/
def prunedScore : ℚ := -(99999 : ℚ) / 10

/-- Shallow embedding of `BaseNode` (node.hpp): per-child statistics,
pruning bits and the parent/child edges.  Children and parents are node
ids (indices into a `Graph`).  The `stopped`/`persistent` flags and the
mutex are omitted: no claim settled here mentions them.  Default values
mirror the C++ in-class member initializers. -/
structure Node where
  permissible_chars : List Nat := []
  affected : List (List (Int × Nat)) := []
  children : List (Option Nat) := []
  priors : List ℚ := []
  pruned : List Bool := []
  action_counts : List Int := []
  total_values : List ℚ := []
  max_values : List ℚ := []
  visit_count : Int := 0
  max_index : Int := -1
  max_value : ℚ := -(99999 : ℚ) / 10
  num_unpruned_actions : Int := -1
  parents : List Nat := []
  parent_indices : List Nat := []
deriving DecidableEq, Inhabited

/-- Embedding of `BaseNode::init_stats`. -/
def init_stats (nd : Node) : Node :=
  let n := nd.permissible_chars.length
  { nd with
    action_counts := List.replicate n 0,
    total_values := List.replicate n 0,
    visit_count := 0,
    max_index := -1,
    max_value := prunedScore,
    max_values := List.replicate n prunedScore }

/-- Embedding of `BaseNode::virtual_select(index, game_count, virtual_loss)`. -/
def virtual_select (nd : Node) (index : Nat) (game_count : Int) (virtual_loss : ℚ) : Node :=
  { nd with
    action_counts := nd.action_counts.set index (nd.action_counts.getD index 0 + game_count),
    total_values := nd.total_values.set index
      (nd.total_values.getD index 0 - (game_count : ℚ) * virtual_loss),
    visit_count := nd.visit_count + game_count }

/-- Embedding of `BaseNode::update_stats(index, new_value, game_count, virtual_loss)`.
The C++ body is a sequence of assignments guarded by two independent `if`s;
it is rendered here as one record update whose fields carry those `if`s
(the C++ reads `max_value` and `max_values[index]` before any write that
could affect them, so the two renderings coincide).  The fatal
`assert(false)` on `action_counts[index] < 1` is modelled by `none`. -/
def update_stats (nd0 : Node) (index : Nat) (new_value : ℚ) (game_count : Int)
    (virtual_loss : ℚ) : Option Node :=
  let ac := nd0.action_counts.set index (nd0.action_counts.getD index 0 - (game_count - 1))
  if ac.getD index 0 < 1 then none
  else
    some { nd0 with
      action_counts := ac,
      max_value := if nd0.max_value < new_value then new_value else nd0.max_value,
      max_index := if nd0.max_value < new_value then (index : Int) else nd0.max_index,
      max_values := if nd0.max_values.getD index 0 < new_value then
          nd0.max_values.set index new_value else nd0.max_values,
      total_values := nd0.total_values.set index
        (nd0.total_values.getD index 0 + ((game_count : ℚ) * virtual_loss + new_value)),
      visit_count := nd0.visit_count - (game_count - 1) }

/-- Embedding of `std::max_element`'s left-to-right scan over `float` scores:
the running best is replaced only when a strictly larger element appears, so
the result is the first index attaining the maximum.  Arguments: running
best index, running best value, index of the head of the remaining list. -/
def maxElemAux : Nat → ℚ → Nat → List ℚ → Nat
  | bi, _, _, [] => bi
  | bi, bv, i, x :: xs => if bv < x then maxElemAux i x (i + 1) xs else maxElemAux bi bv (i + 1) xs

/-- Index returned by `std::max_element(scores.begin(), scores.end())`
(as `std::distance` from `begin`); `0` on the empty list (the C++ code never
calls it on an empty vector: `get_best_action` asserts `is_expanded`). -/
def maxElemIdx : List ℚ → Nat
  | [] => 0
  | x :: xs => maxElemAux 0 x 1 xs

/-- Embedding of `BaseNode::get_scores(puct_c, heur_c, add_noise)`.  `sq`
is the uninterpreted square-root model and `rng` supplies the values of
the `randf(1e-8)` draws when `add_noise` is set. -/
def get_scores (sq : ℚ → ℚ) (rng : Nat → ℚ) (nd : Node) (puct_c heur_c : ℚ)
    (add_noise : Bool) : List ℚ :=
  let sqrt_ns := sq ((nd.visit_count : ℚ))
  (List.range nd.priors.length).map fun i =>
    let nsa : ℚ := ((nd.action_counts.getD i 0 : Int) : ℚ)
    let q := nd.total_values.getD i 0 / (nsa + eps)
    let p := nd.priors.getD i 0
    let u := puct_c * p * sqrt_ns / (1 + nsa)
    let h := heur_c * sq ((((nd.affected.getD i []).length : Nat) : ℚ)) / (1 + nsa)
    let noise := if add_noise then rng i else 0
    if nd.pruned.getD i false then prunedScore else q + u + h + noise

/-- Embedding of `BaseNode::get_best_action` (named `get_best_subaction` in
the spec): the `std::max_element` index over the scores, paired with the
permissible character at that index. -/
def get_best_action (sq : ℚ → ℚ) (rng : Nat → ℚ) (nd : Node) (puct_c heur_c : ℚ)
    (add_noise : Bool) : Nat × Nat :=
  let scores := get_scores sq rng nd puct_c heur_c add_noise
  let index := maxElemIdx scores
  (index, nd.permissible_chars.getD index 0)

/-- Score of child `i` exactly as the spec's §4.2 formula writes it (with
`add_noise == false`, so `ε = 0`):
`pruned[i] ? -9999.9 : w/(n + 1e-8) + puct_c·p·sqrt(visit_count)/(1+n) + heur_c·sqrt(a)/(1+n)`. -/
def specScore (sq : ℚ → ℚ) (nd : Node) (puct_c heur_c : ℚ) (i : Nat) : ℚ :=
  if nd.pruned.getD i false then prunedScore
  else
    nd.total_values.getD i 0 / (((nd.action_counts.getD i 0 : Int) : ℚ) + eps)
    + puct_c * nd.priors.getD i 0 * sq ((nd.visit_count : ℚ))
        / (1 + ((nd.action_counts.getD i 0 : Int) : ℚ))
    + heur_c * sq ((((nd.affected.getD i []).length : Nat) : ℚ))
        / (1 + ((nd.action_counts.getD i 0 : Int) : ℚ))

/-- The property "j is the first index attaining the maximum of l". -/
def FirstMax (l : List ℚ) (j : Nat) : Prop :=
  j < l.length ∧ (∀ k, k < l.length → l.getD k 0 ≤ l.getD j 0) ∧
    (∀ k, k < j → l.getD k 0 < l.getD j 0)

/-- A concrete expanded and evaluated node used to instantiate claim C3. -/
def c3Node : Node :=
  { permissible_chars := [4, 6], affected := [[], []], children := [none, none],
    priors := [1 / 2, 1 / 2], pruned := [false, false], action_counts := [0, 0],
    total_values := [0, 0], max_values := [0, 0] }

/-- Embedding of the file-local `normalize` helper: the normalizing sum
accumulates all priors starting from `1e-8`, then divides each prior by it. -/
def normSum (priors : List ℚ) : ℚ := priors.foldl (· + ·) eps

/-- Embedding of `normalize(priors)` (in-place division by `normSum`). -/
def normalize (priors : List ℚ) : List ℚ := priors.map (· / normSum priors)

/-- Embedding of `gather_priors(values, indices)`: pick `values[index]` for
each index, then normalize. -/
def gather_priors (values : List ℚ) (indices : List Nat) : List ℚ :=
  normalize (indices.map fun index => values.getD index 0)

/-- Embedding of the `TreeNode`-specific evaluator caches (node.hpp):
`meta_priors`, `special_priors` and the gathered `priors`. -/
structure TN where
  permissible_chars : List Nat := []
  meta_priors : List (List ℚ) := []
  special_priors : List ℚ := []
  priors : List ℚ := []
deriving DecidableEq, Inhabited

/-- Embedding of `TreeNode::evaluate(meta_priors, special_priors)`: a no-op
when the node is already evaluated (`priors.size() > 0`); otherwise stores
the caches and gathers `priors` from `meta_priors[0]` over
`permissible_chars`.  (The C++ `assert(is_expanded())` is a precondition of
the callers modelled here.) -/
def evaluate (t : TN) (mp : List (List ℚ)) (sp : List ℚ) : TN :=
  if 0 < t.priors.length then t
  else { t with
         meta_priors := mp,
         special_priors := sp,
         priors := gather_priors (mp.getD 0 []) t.permissible_chars }

/-- Embedding of the inner loop of `TreeNode::add_noise`: cell `j` of `row`
is overwritten with `row[j]·(1 - nr) + nrow[j]·nr` for `j` below the noise
row's length, and kept otherwise (the C++ loops run over the noise dims). -/
def mixRow (row nrow : List ℚ) (nr : ℚ) : List ℚ :=
  (List.range row.length).map fun j =>
    if j < nrow.length then row.getD j 0 * (1 - nr) + nrow.getD j 0 * nr else row.getD j 0

/-- Embedding of the outer loop of `TreeNode::add_noise` over the meta
prior rows. -/
def mixMeta (mp nmp : List (List ℚ)) (nr : ℚ) : List (List ℚ) :=
  (List.range mp.length).map fun i =>
    if i < nmp.length then mixRow (mp.getD i []) (nmp.getD i []) nr else mp.getD i []

/-- Embedding of `TreeNode::add_noise(meta_noise, special_noise, noise_ratio)`:
compute the mixed priors and hand them to `evaluate`. -/
def add_noise (t : TN) (meta_noise : List (List ℚ)) (special_noise : List ℚ) (nr : ℚ) : TN :=
  evaluate t (mixMeta t.meta_priors meta_noise nr) (mixRow t.special_priors special_noise nr)

/-- A concrete evaluated TreeNode (priors attached) for claim C5. -/
def c5Node : TN :=
  { permissible_chars := [0], meta_priors := [[1]], special_priors := [1], priors := [1] }

/-- The node `c5Node` with its priors cleared (`BaseNode::clear_priors`),
as the MCTS driver does before mixing root noise in. -/
def c5Fresh : TN :=
  { permissible_chars := [0], meta_priors := [[1]], special_priors := [1], priors := [] }

/-- A graph of `BaseNode`s: node ids are list indices; the C++ pointer
structure (`parents`, `children`) is rendered through these ids. -/
abbrev Graph := List Node

/-- Dereference a node id (the C++ code only ever dereferences valid
pointers; theorems carry the corresponding bounds). -/
def nodeAt (g : Graph) (n : Nat) : Node := g.getD n {}

/-- Write back a node. -/
def setNode (g : Graph) (n : Nat) (nd : Node) : Graph := g.set n nd

/-- Embedding of `BaseNode::connect(index, child)`: a no-op unless
`children[index]` is null; otherwise link the child and record the
back-edge in the child's `parents`/`parent_indices`. -/
def connect (g : Graph) (p : Nat) (index : Nat) (c : Nat) : Graph :=
  if (nodeAt g p).children.getD index none = none then
    let g1 := setNode g p
      { nodeAt g p with children := (nodeAt g p).children.set index (some c) }
    setNode g1 c
      { nodeAt g1 c with
        parents := (nodeAt g1 c).parents ++ [p],
        parent_indices := (nodeAt g1 c).parent_indices ++ [index] }
  else g

/-- The `(parent, parent_index)` pairs of a node, as iterated by `prune()`. -/
def zipPar (nd : Node) : List (Nat × Nat) := nd.parents.zip nd.parent_indices

/-- The body of `BaseNode::prune()` before the parent loop:
`num_unpruned_actions = 0; std::fill(pruned.begin(), pruned.end(), true)`. -/
def markAllPruned (nd : Node) : Node :=
  { nd with num_unpruned_actions := 0, pruned := nd.pruned.map fun _ => true }

/-- The non-recursive part of `BaseNode::prune(index)`: mark the entry,
decrementing `num_unpruned_actions` only if it was unmarked. -/
def pruneAtStep (g : Graph) (n : Nat) (index : Nat) : Graph :=
  if (nodeAt g n).pruned.getD index false then g
  else setNode g n
    { nodeAt g n with
      pruned := (nodeAt g n).pruned.set index true,
      num_unpruned_actions := (nodeAt g n).num_unpruned_actions - 1 }

mutual

/-- Embedding of `BaseNode::prune()`: zero out `num_unpruned_actions`, fill
`pruned` with `true`, then prune each parent at the recorded index.  The
`fuel` argument bounds the upward recursion depth (the C++ recursion
terminates because parent links are acyclic; with `fuel` larger than the
node's depth measure the model agrees with the C++ code). -/
def pruneFull : Nat → Graph → Nat → Graph
  | 0, g, _ => g
  | fuel + 1, g, n =>
    pruneParents fuel (setNode g n (markAllPruned (nodeAt g n))) (zipPar (nodeAt g n))
termination_by fuel g n => (fuel, 0, 0)

/-- The loop `for i: parents[i]->prune(parent_indices[i])` inside `prune()`. -/
def pruneParents : Nat → Graph → List (Nat × Nat) → Graph
  | _, g, [] => g
  | fuel, g, pi :: rest => pruneParents fuel (pruneAt fuel g pi.1 pi.2) rest
termination_by fuel g l => (fuel, 2, l.length)

/-- Embedding of `BaseNode::prune(index)`: the marking step, then a cascade
via `prune()` if the node has become fully pruned (`is_pruned()`). -/
def pruneAt (fuel : Nat) (g : Graph) (n : Nat) (index : Nat) : Graph :=
  if (nodeAt (pruneAtStep g n index) n).num_unpruned_actions = 0 then
    pruneFull fuel (pruneAtStep g n index) n
  else pruneAtStep g n index
termination_by (fuel, 1, 0)

end

/-- A sequence of `prune(index)` calls, as the search performs over time. -/
def pruneCalls (f : Nat) (g : Graph) (calls : List (Nat × Nat)) : Graph :=
  calls.foldl (fun h c => pruneAt f h c.1 c.2) g

/-- The count of unpruned entries (`count(!pruned[i])`), as the signed
type of `num_unpruned_actions`. -/
def countFalse (l : List Bool) : Int := ((l.countP fun b => !b : Nat) : Int)

/-- Proposition: in graph `g`, node `p` has its `pruned[i]` bit set. -/
def marked (g : Graph) (p i : Nat) : Prop := (nodeAt g p).pruned.getD i false = true

/-- Per-node bookkeeping invariant: `num_unpruned_actions` equals the count
of unpruned entries. -/
def statOK (nd : Node) : Prop := nd.num_unpruned_actions = countFalse nd.pruned

/-- Structural well-formedness of the parent links of node `n`: ids in
range, parent indices within the parent's `pruned` array, and `d` a depth
measure strictly decreasing toward parents (the parent DAG is acyclic). -/
def edgesOK (d : Nat → Nat) (g : Graph) (n : Nat) : Prop :=
  ∀ pi ∈ zipPar (nodeAt g n),
    pi.1 < g.length ∧ pi.2 < (nodeAt g pi.1).pruned.length ∧ d pi.1 < d n

/-- The pruning invariant, relativized to a set `pend` of pending
obligations `(node, parent, index)` whose marking is still owed by an
enclosing `prune()` cascade. -/
def InvX (d : Nat → Nat) (g : Graph) (pend : List (Nat × Nat × Nat)) : Prop :=
  ∀ n, n < g.length → statOK (nodeAt g n) ∧ edgesOK d g n ∧
    ((nodeAt g n).num_unpruned_actions = 0 →
      ∀ pi ∈ zipPar (nodeAt g n), marked g pi.1 pi.2 ∨ (n, pi.1, pi.2) ∈ pend)

/-- The pruning invariant of the claim: bookkeeping per node, plus "a fully
pruned node has `pruned[parent_index]` set in every parent". -/
def PruneInv (d : Nat → Nat) (g : Graph) : Prop := InvX d g []

/-- `InvX` with node `n0`'s own propagation clause dropped (used while
`prune()` is part-way through marking `n0`'s parents). -/
def InvXn (d : Nat → Nat) (g : Graph) (pend : List (Nat × Nat × Nat)) (n0 : Nat) : Prop :=
  ∀ n, n < g.length → statOK (nodeAt g n) ∧ edgesOK d g n ∧
    (n ≠ n0 → (nodeAt g n).num_unpruned_actions = 0 →
      ∀ pi ∈ zipPar (nodeAt g n), marked g pi.1 pi.2 ∨ (n, pi.1, pi.2) ∈ pend)

/-- Shape preservation: pruning never changes the graph size, the parent
links, or the lengths of the `pruned` arrays. -/
def SameShape (g g' : Graph) : Prop :=
  g'.length = g.length ∧ ∀ m,
    (nodeAt g' m).parents = (nodeAt g m).parents ∧
    (nodeAt g' m).parent_indices = (nodeAt g m).parent_indices ∧
    (nodeAt g' m).pruned.length = (nodeAt g m).pruned.length

/-- Induction bundle for `prune(index)` at fuel `f`: the relativized
invariant is preserved, the marked entry is set afterwards, and marking is
monotone. -/
def AtOK (f : Nat) : Prop :=
  ∀ (d : Nat → Nat) (g : Graph) (n idx : Nat) (pend : List (Nat × Nat × Nat)),
    InvX d g pend → n < g.length → idx < (nodeAt g n).pruned.length → d n < f →
    InvX d (pruneAt f g n idx) pend ∧
    marked (pruneAt f g n idx) n idx ∧
    (∀ m j, marked g m j → marked (pruneAt f g n idx) m j)

/-- Induction bundle for `prune()` at fuel `f`: starting from the invariant
with the node's own propagation clause dropped, the full relativized
invariant is restored, the node ends fully pruned with an all-true array,
and marking is monotone. -/
def FullOK (f : Nat) : Prop :=
  ∀ (d : Nat → Nat) (g : Graph) (n : Nat) (pend : List (Nat × Nat × Nat)),
    InvXn d g pend n → n < g.length → d n < f →
    InvX d (pruneFull f g n) pend ∧
    (nodeAt (pruneFull f g n) n).num_unpruned_actions = 0 ∧
    countFalse (nodeAt (pruneFull f g n) n).pruned = 0 ∧
    (∀ m j, marked g m j → marked (pruneFull f g n) m j)

/-- Induction bundle for the parent loop at fuel `f`, processing the pending
obligations `(n0, p, i)` for the parent pairs `ps` of node `n0`. -/
def ParOK (f : Nat) : Prop :=
  ∀ (d : Nat → Nat) (g : Graph) (n0 : Nat) (ps : List (Nat × Nat))
    (pend : List (Nat × Nat × Nat)),
    InvX d g (pend ++ ps.map fun pi => (n0, pi.1, pi.2)) →
    (∀ pi ∈ ps, pi.1 < g.length ∧ pi.2 < (nodeAt g pi.1).pruned.length ∧ d pi.1 < f) →
    InvX d (pruneParents f g ps) pend ∧
    (∀ m j, marked g m j → marked (pruneParents f g ps) m j)

/-- Stability bundle: on an invariant-satisfying graph, `prune()` on an
already fully pruned node is the identity. -/
def SFullOK (f : Nat) : Prop :=
  ∀ (d : Nat → Nat) (g : Graph) (n : Nat),
    PruneInv d g → n < g.length → d n < f →
    (nodeAt g n).num_unpruned_actions = 0 → pruneFull f g n = g

/-- Stability bundle: on an invariant-satisfying graph, `prune(index)` on an
already marked entry is the identity. -/
def SAtOK (f : Nat) : Prop :=
  ∀ (d : Nat → Nat) (g : Graph) (n idx : Nat),
    PruneInv d g → n < g.length → d n < f →
    marked g n idx → pruneAt f g n idx = g

/-- Stability bundle for the parent loop over already marked entries. -/
def SParOK (f : Nat) : Prop :=
  ∀ (d : Nat → Nat) (g : Graph) (ps : List (Nat × Nat)),
    PruneInv d g →
    (∀ pi ∈ ps, pi.1 < g.length ∧ d pi.1 < f ∧ marked g pi.1 pi.2) →
    pruneParents f g ps = g

/-- A two-node graph (a parent `0` with one action leading to child `1`)
used to instantiate claims C4 and C9. -/
def c4Graph : Graph :=
  [{ permissible_chars := [3], children := [some 1], pruned := [false],
     num_unpruned_actions := 1 },
   { permissible_chars := [4], children := [none], pruned := [false],
     num_unpruned_actions := 1, parents := [0], parent_indices := [0] }]

/-- The transposition table: canonical nodes keyed by word-identity
sequences (word ids stand for the canonical `Word *` pointers). -/
structure TTable where
  entries : List (List Nat × Nat)
deriving DecidableEq, Inhabited

/-- Modelled from the spec: `Trie<Word *, TreeNode *>::get(words, ret)` of
the transposition table (the `Trie` implementation in `common.hpp` is not
among the sources).  Per spec §4.8 (`get_or_insert`), it returns the
existing canonical node when the key is present (leaving `ret` to be
discarded by the caller), and otherwise inserts the candidate `ret` and
keeps it; the returned flag says whether an existing node was found. -/
def ttable_get (t : TTable) (ws : List Nat) (cand : Nat) : Bool × TTable × Nat :=
  match t.entries.find? fun e => e.1 == ws with
  | some e => (true, t, e.2)
  | none => (false, ⟨t.entries ++ [(ws, cand)]⟩, cand)

/-- The number of canonical nodes (`t_table.size()`). -/
def ttable_size (t : TTable) : Nat := t.entries.length

/-- Allocation state for `TreeNode::get_tree_node`: the static table plus a
fresh-id counter standing for `new TreeNode(words)`. -/
structure TState where
  table : TTable
  next_id : Nat
deriving DecidableEq, Inhabited

/-- Embedding of `TreeNode::get_tree_node(words)`: construct a fresh
candidate node, ask the table; if an existing node is found the candidate
is deleted (simply never referenced here) and the existing node returned. -/
def get_tree_node (s : TState) (ws : List Nat) : Nat × TState :=
  let gr := ttable_get s.table ws s.next_id
  (gr.2.2, { table := gr.2.1, next_id := s.next_id + 1 })

/-- Embedding of the `Action` record of the old `Action.h` API. -/
structure PyAction where
  action_id : Int := 0
  before_id : Int := 0
  after_id : Int := 0
deriving DecidableEq, Inhabited

/-- The state of a `PyActionSpace`: its registered actions. -/
structure ASpace where
  actions : List PyAction := []
deriving DecidableEq, Inhabited

/-- Modelled from the spec: the underlying C++ `ActionSpace::get_action`
(`Action.cpp` is not among the sources) returns the registered action for
an in-range id. -/
def cpp_get_action (s : ASpace) (action_id : Int) : PyAction :=
  s.actions.getD action_id.toNat {}

/-- Embedding of the Cython `PyActionSpace.get_action`: ids outside
`[0, len(self))` raise a `ValueError` before touching the C++ object; the
action-space state is returned unchanged alongside the result. -/
def pyas_get_action (s : ASpace) (action_id : Int) : Except String PyAction × ASpace :=
  if (s.actions.length : Int) ≤ action_id ∨ action_id < 0 then
    (Except.error ("Action id out of bound."), s)
  else
    (Except.ok (cpp_get_action s action_id), s)

/-- Embedding of the old-API `TreeNode` as seen by the Cython bridge:
`edges` maps action ids to `Edge = (next node, reward)`. -/
structure PyTN where
  edges : List (Int × Nat × ℚ) := []
  done : Bool := false
deriving DecidableEq, Inhabited

/-- Embedding of `TreeNode::has_acted(action_id)` (`edges.find != end`). -/
def has_acted (t : PyTN) (action_id : Int) : Bool :=
  t.edges.any fun e => e.1 == action_id

/-- The `edges.at(action_id)` lookup (guarded by `has_acted` in the caller). -/
def edges_at (t : PyTN) (action_id : Int) : Nat × ℚ :=
  match t.edges.find? fun e => e.1 == action_id with
  | some e => e.2
  | none => (0, 0)

/-- Embedding of the Cython `PyTreeNode.get_edge`: raise a `ValueError` when
the node has not acted with the id, else return `(next, done, reward)`; the
node state is returned unchanged alongside the result. -/
def pytn_get_edge (t : PyTN) (action_id : Int) : Except String (Nat × Bool × ℚ) × PyTN :=
  if has_acted t action_id then
    (Except.ok ((edges_at t action_id).1, t.done, (edges_at t action_id).2), t)
  else
    (Except.error ("Action has not been explored."), t)

/-- Embedding of the Cython `np2vocab(arr, lengths, n)`: row `i` of the
vocabulary is the first `lengths[i]` cells of row `i` of the array. -/
def np2vocab (arr : List (List Int)) (lengths : List Nat) (n : Nat) : List (List Int) :=
  (List.range n).map fun i =>
    (List.range (lengths.getD i 0)).map fun j => (arr.getD i []).getD j 0

/-- The `m = max(m, vocab_i[i].size())` loop of `vocab2np`. -/
def maxRowLen (vocab : List (List Int)) : Nat :=
  vocab.foldl (fun m row => max m row.length) 0

/-- Embedding of the Cython `vocab2np(vocab_i)`: an `[N, M']` array filled
with `PAD_ID` and overwritten with each row's cells (`M'` the longest row). -/
def vocab2np (vocab : List (List Int)) (pad : Int) : List (List Int) :=
  vocab.map fun row =>
    (List.range (maxRowLen vocab)).map fun j =>
      if j < row.length then row.getD j 0 else pad

/-- A concrete node used to instantiate claim C1's theorem. -/
def c1Node : Node := { permissible_chars := [7], action_counts := [2], total_values := [5] }

/-- A node playing the role of an arbitrary freshly constructed
`BaseNode` with a single permissible action (the S3 scenario of the spec). -/
def c2Node : Node := { permissible_chars := [0] }

/-- The S3 scenario state after `init_stats`, `virtual_select(0, 3, 0.5)`
and the matching `update_stats(0, 2.0, 3, 0.5)`; `.getD c2Node` only
unwraps the (successful) `Option`. -/
def c2Final : Node :=
  (update_stats (virtual_select (init_stats c2Node) 0 3 (1 / 2)) 0 2 3 (1 / 2)).getD c2Node

end ASLI

namespace ASLI

/-- Helper: reading a just-written cell of a list. -/
theorem getD_set_self {α : Type} (l : List α) (i : Nat) (v d : α) (h : i < l.length) :
    (l.set i v).getD i d = v := by
  induction l generalizing i with
  | nil => simp at h
  | cons x xs ih =>
    cases i with
    | zero => simp [List.set, List.getD]
    | succ j =>
      simp only [List.set, List.length_cons] at *
      exact ih j (by omega)

/-- Claim C1: a `virtual_select(i, game_count, virtual_loss)` followed by the
matching `update_stats(i, V, game_count, virtual_loss)` succeeds (the fatal
assertion does not fire) and leaves `action_counts[i]` larger by exactly 1,
`visit_count` larger by exactly 1 and `total_values[i]` larger by exactly
`V`, for every valid child index, every `game_count ≥ 1` and every
`virtual_loss`, on any node with nonnegative `action_counts[i]`. -/
theorem c1_virtual_select_update_stats (nd : Node) (i : Nat) (g : Int) (vl V : ℚ)
    (hia : i < nd.action_counts.length) (hit : i < nd.total_values.length)
    (hnn : 0 ≤ nd.action_counts.getD i 0) (hg : 1 ≤ g) :
    ∃ nd', update_stats (virtual_select nd i g vl) i V g vl = some nd' ∧
      nd'.action_counts.getD i 0 = nd.action_counts.getD i 0 + 1 ∧
      nd'.visit_count = nd.visit_count + 1 ∧
      nd'.total_values.getD i 0 = nd.total_values.getD i 0 + V := by
  have hsel : (virtual_select nd i g vl).action_counts.getD i 0
      = nd.action_counts.getD i 0 + g := by
    simp only [virtual_select]
    exact getD_set_self _ _ _ _ hia
  have hselt : (virtual_select nd i g vl).total_values.getD i 0
      = nd.total_values.getD i 0 - (g : ℚ) * vl := by
    simp only [virtual_select]
    exact getD_set_self _ _ _ _ hit
  have hlen1 : i < (virtual_select nd i g vl).action_counts.length := by
    simp only [virtual_select, List.length_set]; exact hia
  have hlen2 : i < (virtual_select nd i g vl).total_values.length := by
    simp only [virtual_select, List.length_set]; exact hit
  simp only [update_stats]
  rw [getD_set_self _ _ _ _ hlen1, hsel]
  rw [if_neg (by omega)]
  refine ⟨_, rfl, ?_, ?_, ?_⟩
  · show ((virtual_select nd i g vl).action_counts.set i
      (nd.action_counts.getD i 0 + g - (g - 1))).getD i 0 = _
    rw [getD_set_self _ _ _ _ hlen1]; omega
  · show (virtual_select nd i g vl).visit_count - (g - 1) = _
    simp only [virtual_select]; omega
  · show ((virtual_select nd i g vl).total_values.set i
      ((virtual_select nd i g vl).total_values.getD i 0 + ((g : ℚ) * vl + V))).getD i 0 = _
    rw [getD_set_self _ _ _ _ hlen2, hselt]; ring

/-- Witness for C1 at the concrete node `c1Node`. -/
theorem c1_witness :
    ((0 : Nat) < c1Node.action_counts.length ∧ (0 : Nat) < c1Node.total_values.length ∧
      0 ≤ c1Node.action_counts.getD 0 0 ∧ (1 : Int) ≤ 4) ∧
    ∃ nd', update_stats (virtual_select c1Node 0 4 (1/4)) 0 3 4 (1/4) = some nd' ∧
      nd'.action_counts.getD 0 0 = c1Node.action_counts.getD 0 0 + 1 ∧
      nd'.visit_count = c1Node.visit_count + 1 ∧
      nd'.total_values.getD 0 0 = c1Node.total_values.getD 0 0 + 3 :=
  ⟨⟨by decide, by decide, by decide, by decide⟩,
    c1_virtual_select_update_stats c1Node 0 4 (1/4) 3
      (by decide) (by decide) (by decide) (by decide)⟩

/-- Claim C2, counterexample: in scenario S3 the code yields
`total_values[0] == 2.0` (the virtual-loss inflation `-1.5` plus the backup
increment `3·0.5 + 2.0 = 3.5`), not the claimed `3.5`. -/
theorem c2_counterexample :
    c2Final.total_values.getD 0 0 = 2 ∧ c2Final.total_values.getD 0 0 ≠ 7 / 2 := by
  have h : c2Final.total_values.getD 0 0 = 2 := by
    norm_num [c2Final, c2Node, update_stats, virtual_select, init_stats, prunedScore,
      List.getD, List.set]
  exact ⟨h, by rw [h]; norm_num⟩

/-- Claim C2 as amended: the S3 round trip yields `action_counts[0] == 1`,
`visit_count == 1`, `total_values[0] == 2.0` (not `3.5`), `max_value == 2.0`
and `max_index == 0`, and the backup assertion does not fire. -/
theorem c2_amended :
    (update_stats (virtual_select (init_stats c2Node) 0 3 (1 / 2)) 0 2 3 (1 / 2)).isSome = true ∧
    c2Final.action_counts = [1] ∧
    c2Final.visit_count = 1 ∧
    c2Final.total_values = [2] ∧
    c2Final.max_value = 2 ∧
    c2Final.max_index = 0 := by
  refine ⟨?_, ?_, ?_, ?_, ?_, ?_⟩ <;>
    norm_num [c2Final, c2Node, update_stats, virtual_select, init_stats, prunedScore,
      List.getD, List.set]

/-- Helper: reading another cell of a written list. -/
theorem getD_set_ne {α : Type} (l : List α) (n m : Nat) (v d : α) (h : m ≠ n) :
    (l.set n v).getD m d = l.getD m d := by
  induction l generalizing n m with
  | nil => simp [List.set]
  | cons x xs ih =>
    cases n with
    | zero =>
      cases m with
      | zero => exact absurd rfl h
      | succ j => simp [List.set, List.getD]
    | succ k =>
      cases m with
      | zero => simp [List.set, List.getD]
      | succ j =>
        simp only [List.set, List.getD_cons_succ]
        exact ih k j (by omega)

/-- Helper: writing back the value already present is the identity. -/
theorem set_getD_self {α : Type} (l : List α) (n : Nat) (d : α) (h : n < l.length) :
    l.set n (l.getD n d) = l := by
  induction l generalizing n with
  | nil => simp at h
  | cons x xs ih =>
    cases n with
    | zero => simp [List.set, List.getD]
    | succ k =>
      simp only [List.getD_cons_succ, List.set, List.cons.injEq, true_and]
      exact ih k (by simpa using h)

/-- Helper: a constant-true map reads `true` at every valid index. -/
theorem getD_map_true (l : List Bool) (j : Nat) (h : j < l.length) :
    (l.map fun _ => true).getD j false = true := by
  induction l generalizing j with
  | nil => simp at h
  | cons x xs ih =>
    cases j with
    | zero => simp [List.getD]
    | succ k =>
      simp only [List.map, List.getD_cons_succ]
      exact ih k (by simpa using h)

/-- Helper: the unpruned count is nonnegative. -/
theorem countFalse_nonneg (l : List Bool) : 0 ≤ countFalse l := by
  simp only [countFalse]
  exact Int.natCast_nonneg _

/-- Helper: the unpruned count of an all-true fill is zero. -/
theorem countFalse_map_true (l : List Bool) : countFalse (l.map fun _ => true) = 0 := by
  simp [countFalse, List.countP_map, Function.comp]

/-- Helper: the unpruned count ignores a marked head. -/
theorem countFalse_cons_true (xs : List Bool) : countFalse (true :: xs) = countFalse xs := by
  simp [countFalse, List.countP_cons]

/-- Helper: the unpruned count counts an unmarked head. -/
theorem countFalse_cons_false (xs : List Bool) :
    countFalse (false :: xs) = countFalse xs + 1 := by
  simp [countFalse, List.countP_cons]

/-- Helper: marking an unmarked entry decrements the unpruned count. -/
theorem countFalse_set_true (l : List Bool) (i : Nat) (hi : i < l.length)
    (hf : l.getD i false = false) : countFalse (l.set i true) = countFalse l - 1 := by
  induction l generalizing i with
  | nil => simp at hi
  | cons x xs ih =>
    cases i with
    | zero =>
      simp only [List.getD_cons_zero] at hf
      subst hf
      rw [List.set_cons_zero, countFalse_cons_true, countFalse_cons_false]
      omega
    | succ k =>
      simp only [List.getD_cons_succ] at hf
      have := ih k (by simpa using hi) hf
      rw [List.set_cons_succ]
      cases x
      · rw [countFalse_cons_false, countFalse_cons_false, this]
        have := countFalse_nonneg xs
        omega
      · rw [countFalse_cons_true, countFalse_cons_true, this]

/-- Helper: zero unpruned count means every valid entry is marked. -/
theorem countFalse_eq_zero_iff (l : List Bool) :
    countFalse l = 0 ↔ ∀ j, j < l.length → l.getD j false = true := by
  induction l with
  | nil => simp [countFalse]
  | cons x xs ih =>
    have hnn := countFalse_nonneg xs
    constructor
    · intro h j hj
      have hx : x = true ∧ countFalse xs = 0 := by
        cases x
        · rw [countFalse_cons_false] at h; omega
        · rw [countFalse_cons_true] at h; exact ⟨rfl, h⟩
      cases j with
      | zero => simpa using hx.1
      | succ k =>
        simp only [List.getD_cons_succ]
        exact (ih.mp hx.2) k (by simpa using hj)
    · intro h
      have hx : x = true := by simpa using h 0 (by simp)
      have hxs : countFalse xs = 0 := ih.mpr fun j hj => by
        have := h (j + 1) (by simpa using hj)
        simpa using this
      subst hx
      rw [countFalse_cons_true, hxs]

/-- Helper: filling an already fully marked array with `true` is the identity. -/
theorem map_true_eq_self (l : List Bool) (h : countFalse l = 0) :
    (l.map fun _ => true) = l := by
  induction l with
  | nil => rfl
  | cons x xs ih =>
    have hnn := countFalse_nonneg xs
    have hx : x = true ∧ countFalse xs = 0 := by
      cases x
      · rw [countFalse_cons_false] at h; omega
      · rw [countFalse_cons_true] at h; exact ⟨rfl, h⟩
    simp only [List.map, ih hx.2, hx.1]

/-- Writing a node does not change the graph size. -/
theorem length_setNode (g : Graph) (n : Nat) (nd : Node) : (setNode g n nd).length = g.length := by
  simp [setNode]

/-- Reading back a just-written node. -/
theorem nodeAt_setNode_self (g : Graph) (n : Nat) (nd : Node) (h : n < g.length) :
    nodeAt (setNode g n nd) n = nd :=
  getD_set_self g n nd _ h

/-- Reading another node after a write. -/
theorem nodeAt_setNode_ne (g : Graph) (n m : Nat) (nd : Node) (h : m ≠ n) :
    nodeAt (setNode g n nd) m = nodeAt g m :=
  getD_set_ne g n m nd _ h

/-- Shape preservation is reflexive. -/
theorem sameShape_refl (g : Graph) : SameShape g g := ⟨rfl, fun _ => ⟨rfl, rfl, rfl⟩⟩

/-- Shape preservation is transitive. -/
theorem sameShape_trans {g1 g2 g3 : Graph} (a : SameShape g1 g2) (b : SameShape g2 g3) :
    SameShape g1 g3 := by
  refine ⟨b.1.trans a.1, fun m => ?_⟩
  obtain ⟨p1, q1, r1⟩ := a.2 m
  obtain ⟨p2, q2, r2⟩ := b.2 m
  exact ⟨p2.trans p1, q2.trans q1, r2.trans r1⟩

/-- Writing a node that keeps parents, parent indices and the pruned length
preserves the shape. -/
theorem sameShape_setNode (g : Graph) (n : Nat) (nd : Node)
    (hp : nd.parents = (nodeAt g n).parents)
    (hpi : nd.parent_indices = (nodeAt g n).parent_indices)
    (hl : nd.pruned.length = (nodeAt g n).pruned.length) :
    SameShape g (setNode g n nd) := by
  refine ⟨length_setNode g n nd, fun m => ?_⟩
  by_cases hm : m = n
  · subst hm
    by_cases hn : m < g.length
    · rw [nodeAt_setNode_self g m nd hn]
      exact ⟨hp, hpi, hl⟩
    · have hid : setNode g m nd = g := by
        simp only [setNode]
        exact List.set_eq_of_length_le (by omega)
      rw [hid]
      exact ⟨rfl, rfl, rfl⟩
  · rw [nodeAt_setNode_ne g n m nd hm]
    exact ⟨rfl, rfl, rfl⟩

/-- The marking step of `prune(index)` preserves the shape. -/
theorem sameShape_pruneAtStep (g : Graph) (n idx : Nat) :
    SameShape g (pruneAtStep g n idx) := by
  unfold pruneAtStep
  split
  · exact sameShape_refl g
  · exact sameShape_setNode _ _ _ rfl rfl (by simp)

/-- The fill step of `prune()` preserves the shape. -/
theorem sameShape_markAll (g : Graph) (n : Nat) :
    SameShape g (setNode g n (markAllPruned (nodeAt g n))) :=
  sameShape_setNode _ _ _ rfl rfl (by simp [markAllPruned])

/-- Shape preservation of `prune(index)`, given it for `prune()` at the
same fuel. -/
theorem shape_at_of_full (f : Nat) (hf : ∀ g n, SameShape g (pruneFull f g n)) :
    ∀ g n i, SameShape g (pruneAt f g n i) := by
  intro g n i
  rw [pruneAt]
  split
  · exact sameShape_trans (sameShape_pruneAtStep g n i) (hf _ n)
  · exact sameShape_pruneAtStep g n i

/-- Shape preservation of the parent loop, given it for `prune(index)`. -/
theorem shape_parents_of_at (f : Nat) (ha : ∀ g n i, SameShape g (pruneAt f g n i)) :
    ∀ (l : List (Nat × Nat)) (g : Graph), SameShape g (pruneParents f g l) := by
  intro l
  induction l with
  | nil =>
    intro g
    simp only [pruneParents]
    exact sameShape_refl g
  | cons pi rest ih =>
    intro g
    simp only [pruneParents]
    exact sameShape_trans (ha g pi.1 pi.2) (ih _)

/-- Shape preservation of `prune()` at every fuel. -/
theorem shape_full : ∀ (f : Nat) (g : Graph) (n : Nat), SameShape g (pruneFull f g n) := by
  intro f
  induction f with
  | zero =>
    intro g n
    simp only [pruneFull]
    exact sameShape_refl g
  | succ f ih =>
    intro g n
    simp only [pruneFull]
    exact sameShape_trans (sameShape_markAll g n)
      (shape_parents_of_at f (shape_at_of_full f ih) _ _)

/-- Shape preservation of `prune(index)` at every fuel. -/
theorem shape_at (f : Nat) : ∀ g n i, SameShape g (pruneAt f g n i) :=
  shape_at_of_full f (shape_full f)

/-- Shape preservation of the parent loop at every fuel. -/
theorem shape_parents (f : Nat) : ∀ l g, SameShape g (pruneParents f g l) :=
  shape_parents_of_at f (shape_at f)

/-- The parent-edge structure of a node is unchanged between graphs of the
same shape. -/
theorem zipPar_of_sameShape {g g' : Graph} (h : SameShape g g') (n : Nat) :
    zipPar (nodeAt g' n) = zipPar (nodeAt g n) := by
  simp [zipPar, (h.2 n).1, (h.2 n).2.1]

/-- Structural well-formedness transports along shape preservation. -/
theorem edgesOK_of_sameShape {g g' : Graph} (d : Nat → Nat) (n : Nat)
    (h : SameShape g g') (he : edgesOK d g n) : edgesOK d g' n := by
  intro pi hpi
  rw [zipPar_of_sameShape h n] at hpi
  obtain ⟨b1, b2, b3⟩ := he pi hpi
  exact ⟨by rw [h.1]; exact b1, by rw [(h.2 pi.1).2.2]; exact b2, b3⟩

/-- Helper: setting an entry to `true` never unmarks another entry. -/
theorem getD_set_true_mono (l : List Bool) (i j : Nat) (h : l.getD j false = true) :
    (l.set i true).getD j false = true := by
  by_cases hij : j = i
  · subst hij
    by_cases hlen : j < l.length
    · rw [getD_set_self _ _ _ _ hlen]
    · rw [List.set_eq_of_length_le (by omega)]
      exact h
  · rw [getD_set_ne _ _ _ _ _ hij]
    exact h

/-- Helper: the all-true fill never unmarks an entry. -/
theorem getD_map_true_mono (l : List Bool) (j : Nat) (h : l.getD j false = true) :
    (l.map fun _ => true).getD j false = true := by
  by_cases hlen : j < l.length
  · exact getD_map_true l j hlen
  · rw [List.getD_eq_getElem?_getD, List.getElem?_eq_none (by simpa using hlen)] at h
    simp at h

/-- The marking step sets the requested entry. -/
theorem pruneAtStep_marked (g : Graph) (n idx : Nat) (hn : n < g.length)
    (hidx : idx < (nodeAt g n).pruned.length) : marked (pruneAtStep g n idx) n idx := by
  unfold pruneAtStep marked
  by_cases hpr : (nodeAt g n).pruned.getD idx false = true
  · rw [if_pos hpr]
    exact hpr
  · rw [if_neg hpr, nodeAt_setNode_self _ _ _ hn]
    exact getD_set_self _ _ _ _ hidx

/-- The marking step never unmarks an entry. -/
theorem pruneAtStep_mono (g : Graph) (n idx : Nat) :
    ∀ m j, marked g m j → marked (pruneAtStep g n idx) m j := by
  intro m j h
  unfold pruneAtStep marked
  by_cases hpr : (nodeAt g n).pruned.getD idx false = true
  · rw [if_pos hpr]
    exact h
  · rw [if_neg hpr]
    by_cases hmn : m = n
    · subst hmn
      by_cases hm : m < g.length
      · rw [nodeAt_setNode_self _ _ _ hm]
        exact getD_set_true_mono _ _ _ h
      · rw [setNode, List.set_eq_of_length_le (by omega)]
        exact h
    · rw [nodeAt_setNode_ne _ _ _ _ hmn]
      exact h

/-- The fill step never unmarks an entry. -/
theorem markAll_mono (g : Graph) (n : Nat) :
    ∀ m j, marked g m j → marked (setNode g n (markAllPruned (nodeAt g n))) m j := by
  intro m j h
  unfold marked markAllPruned
  by_cases hmn : m = n
  · subst hmn
    by_cases hm : m < g.length
    · rw [nodeAt_setNode_self _ _ _ hm]
      exact getD_map_true_mono _ _ h
    · rw [setNode, List.set_eq_of_length_le (by omega)]
      exact h
  · rw [nodeAt_setNode_ne _ _ _ _ hmn]
    exact h

/-- Helper: reading a cell of a range-map list. -/
theorem getD_range_map {β : Type} (f : Nat → β) (n i : Nat) (d : β) :
    ((List.range n).map f).getD i d = if i < n then f i else d := by
  rcases Nat.lt_or_ge i n with h | h
  · simp [List.getD_eq_getElem?_getD, List.getElem?_map, List.getElem?_range, h]
  · have hn : ¬ i < n := by omega
    rw [if_neg hn]
    rw [List.getD_eq_getElem?_getD, List.getElem?_eq_none (by simpa using h)]
    rfl

/-- Helper: `getD` on the left part of an append. -/
theorem getD_append_left {α : Type} (l l2 : List α) (k : Nat) (d : α) (h : k < l.length) :
    (l ++ l2).getD k d = l.getD k d := by
  simp [List.getD_eq_getElem?_getD, List.getElem?_append, h]

/-- Helper: `getD` at the seam of an append. -/
theorem getD_append_at {α : Type} (l l2 : List α) (x : α) (d : α) :
    (l ++ x :: l2).getD l.length d = x := by
  simp [List.getD_eq_getElem?_getD, List.getElem?_append_right (Nat.le_refl l.length)]

/-- Invariant underlying the `std::max_element` scan: if `bi` is the first
maximum of the processed prefix `pre` (with value `pre.getD bi 0`), then
continuing the scan over `xs` yields the first maximum of `pre ++ xs`. -/
theorem maxElemAux_firstMax (xs : List ℚ) : ∀ (pre : List ℚ) (bi : Nat),
    bi < pre.length →
    (∀ k, k < pre.length → pre.getD k 0 ≤ pre.getD bi 0) →
    (∀ k, k < bi → pre.getD k 0 < pre.getD bi 0) →
    FirstMax (pre ++ xs) (maxElemAux bi (pre.getD bi 0) pre.length xs) := by
  induction xs with
  | nil =>
    intro pre bi hbi hmax hfirst
    simp only [List.append_nil, maxElemAux]
    exact ⟨hbi, hmax, hfirst⟩
  | cons x xs ih =>
    intro pre bi hbi hmax hfirst
    have hbv : (pre ++ [x]).getD bi 0 = pre.getD bi 0 := getD_append_left _ _ _ _ hbi
    have hx : (pre ++ [x]).getD pre.length 0 = x := getD_append_at _ _ _ _
    by_cases hlt : pre.getD bi 0 < x
    · have h1 := ih (pre ++ [x]) pre.length
        (by simp)
        (by
          intro k hk
          rw [hx]
          simp only [List.length_append, List.length_cons, List.length_nil] at hk
          rcases Nat.lt_or_ge k pre.length with hk2 | hk2
          · rw [getD_append_left _ _ _ _ hk2]
            exact le_of_lt (lt_of_le_of_lt (hmax k hk2) hlt)
          · have : k = pre.length := by omega
            subst this
            rw [hx])
        (by
          intro k hk
          rw [hx, getD_append_left _ _ _ _ hk]
          exact lt_of_le_of_lt (hmax k hk) hlt)
      rw [hx] at h1
      simp only [List.length_append, List.length_cons, List.length_nil] at h1
      simpa only [maxElemAux, if_pos hlt, List.append_assoc, List.cons_append,
        List.nil_append] using h1
    · have h1 := ih (pre ++ [x]) bi
        (by simp only [List.length_append, List.length_cons, List.length_nil]; omega)
        (by
          intro k hk
          rw [hbv]
          simp only [List.length_append, List.length_cons, List.length_nil] at hk
          rcases Nat.lt_or_ge k pre.length with hk2 | hk2
          · rw [getD_append_left _ _ _ _ hk2]
            exact hmax k hk2
          · have : k = pre.length := by omega
            subst this
            rw [hx]
            exact le_of_not_lt hlt)
        (by
          intro k hk
          rw [hbv, getD_append_left _ _ _ _ (Nat.lt_trans hk hbi)]
          exact hfirst k hk)
      rw [hbv] at h1
      simp only [List.length_append, List.length_cons, List.length_nil] at h1
      simpa only [maxElemAux, if_neg hlt, List.append_assoc, List.cons_append,
        List.nil_append] using h1

/-- The `std::max_element` index is the first index attaining the maximum. -/
theorem maxElemIdx_firstMax (l : List ℚ) (h : l ≠ []) : FirstMax l (maxElemIdx l) := by
  cases l with
  | nil => exact absurd rfl h
  | cons x xs =>
    have h1 := maxElemAux_firstMax xs [x] 0 (by simp)
      (by
        intro k hk
        simp only [List.length_cons, List.length_nil] at hk
        have : k = 0 := by omega
        subst this
        exact le_refl _)
      (by intro k hk; omega)
    simpa only [maxElemIdx, List.cons_append, List.nil_append, List.getD, List.length_cons,
      List.length_nil, List.getD_cons_zero] using h1

/-- Claim C3: for an expanded and evaluated node, each entry of
`get_scores(puct_c, heur_c, add_noise=false)` is `-9999.9` when pruned and
otherwise the spec's `q + u + h` formula, and `get_best_action` returns the
first index attaining the maximum score paired with `permissible_chars` at
that index. -/
theorem c3_scores_and_best (sq : ℚ → ℚ) (rng : Nat → ℚ) (nd : Node) (pc hc : ℚ)
    (hexp : 0 < nd.permissible_chars.length) (heval : 0 < nd.priors.length) :
    (∀ i, i < nd.priors.length →
      (get_scores sq rng nd pc hc false).getD i 0 = specScore sq nd pc hc i) ∧
    FirstMax (get_scores sq rng nd pc hc false) (get_best_action sq rng nd pc hc false).1 ∧
    (get_best_action sq rng nd pc hc false).2
      = nd.permissible_chars.getD (get_best_action sq rng nd pc hc false).1 0 := by
  refine ⟨?_, ?_, rfl⟩
  · intro i hi
    simp only [get_scores, specScore, getD_range_map, if_pos hi, Bool.false_eq_true,
      if_false, add_zero]
  · have hne : get_scores sq rng nd pc hc false ≠ [] := by
      have : (get_scores sq rng nd pc hc false).length = nd.priors.length := by
        simp [get_scores]
      exact List.ne_nil_of_length_pos (by omega)
    exact maxElemIdx_firstMax _ hne

/-- Witness for C3 at the concrete node `c3Node`. -/
theorem c3_witness :
    (0 < c3Node.permissible_chars.length ∧ 0 < c3Node.priors.length) ∧
    ((∀ i, i < c3Node.priors.length →
      (get_scores (fun _ => 0) (fun _ => 0) c3Node 1 1 false).getD i 0
        = specScore (fun _ => 0) c3Node 1 1 i) ∧
    FirstMax (get_scores (fun _ => 0) (fun _ => 0) c3Node 1 1 false)
      (get_best_action (fun _ => 0) (fun _ => 0) c3Node 1 1 false).1 ∧
    (get_best_action (fun _ => 0) (fun _ => 0) c3Node 1 1 false).2
      = c3Node.permissible_chars.getD
          (get_best_action (fun _ => 0) (fun _ => 0) c3Node 1 1 false).1 0) :=
  ⟨⟨by decide, by decide⟩,
    c3_scores_and_best (fun _ => 0) (fun _ => 0) c3Node 1 1 (by decide) (by decide)⟩

/-- Claim C5, counterexample: on the evaluated node `c5Node` (priors
attached) `add_noise` is a no-op — `evaluate` returns early because the node
is already evaluated — so the node's effective priors are NOT re-gathered
from the mixed meta priors (which would give `(1/2)/(1/2 + 1e-8) ≠ 1`). -/
theorem c5_counterexample :
    add_noise c5Node [[0]] [0] (1 / 2) = c5Node ∧
    c5Node.priors
      ≠ gather_priors ((mixMeta c5Node.meta_priors [[0]] (1 / 2)).getD 0 [])
          c5Node.permissible_chars := by
  constructor
  · rfl
  · norm_num [c5Node, gather_priors, normalize, normSum, mixMeta, mixRow, eps,
      List.getD, List.foldl]

/-- Claim C5 as amended: `add_noise` computes the mixed meta/special priors
and passes them to `evaluate`; when the node's priors have been cleared the
node's priors become the re-gather from the mixed meta priors, but when the
node is already evaluated (priors attached) the call leaves the node
unchanged and the mixed noise is discarded. -/
theorem c5_add_noise (t : TN) (mn : List (List ℚ)) (sn : List ℚ) (nr : ℚ) :
    (t.priors = [] →
      add_noise t mn sn nr
        = { t with
            meta_priors := mixMeta t.meta_priors mn nr,
            special_priors := mixRow t.special_priors sn nr,
            priors := gather_priors ((mixMeta t.meta_priors mn nr).getD 0 [])
              t.permissible_chars }) ∧
    (t.priors ≠ [] → add_noise t mn sn nr = t) := by
  constructor
  · intro h
    simp [add_noise, evaluate, h]
  · intro h
    have hl : 0 < t.priors.length := List.length_pos.mpr h
    simp [add_noise, evaluate, hl]

/-- Witness for C5: one application to the cleared node `c5Fresh` and one to
the evaluated node `c5Node`. -/
theorem c5_witness :
    (c5Fresh.priors = [] ∧
      add_noise c5Fresh [[0]] [0] (1 / 2)
        = { c5Fresh with
            meta_priors := mixMeta c5Fresh.meta_priors [[0]] (1 / 2),
            special_priors := mixRow c5Fresh.special_priors [0] (1 / 2),
            priors := gather_priors ((mixMeta c5Fresh.meta_priors [[0]] (1 / 2)).getD 0 [])
              c5Fresh.permissible_chars }) ∧
    (c5Node.priors ≠ [] ∧ add_noise c5Node [[0]] [0] (1 / 2) = c5Node) :=
  ⟨⟨by decide, (c5_add_noise c5Fresh [[0]] [0] (1 / 2)).1 (by decide)⟩,
    ⟨by decide, (c5_add_noise c5Node [[0]] [0] (1 / 2)).2 (by decide)⟩⟩

/-- Helper: a fold of additions over nonnegative elements never drops below
its initial value. -/
theorem le_foldl_add (l : List ℚ) : ∀ init : ℚ, (∀ x ∈ l, 0 ≤ x) →
    init ≤ l.foldl (· + ·) init := by
  induction l with
  | nil => intro init _; exact le_refl _
  | cons x xs ih =>
    intro init h
    have hx : 0 ≤ x := h x (by simp)
    have h2 := ih (init + x) (fun y hy => h y (by simp [hy]))
    simp only [List.foldl]
    linarith

/-- Claim C10, counterexample: the claim quantifies over every input, but on
the input `[-1e-8]` the normalizing sum of `normalize` is exactly zero. -/
theorem c10_counterexample : normSum [-(1 : ℚ) / 100000000] = 0 := by
  norm_num [normSum, eps]

/-- Claim C10 as amended: for inputs with nonnegative entries (priors are
probabilities; in particular the all-zero vector) the normalizing sum is at
least `1e-8` and hence nonzero; gathering from an all-zero prior vector
yields all-zero priors whose sum is `0` rather than `1`; and the `q`-term
denominator `action_counts[i] + 1e-8` of `get_scores` is nonzero whenever
`action_counts[i] ≥ 0`. -/
theorem c10_no_division_by_zero :
    (∀ l : List ℚ, (∀ x ∈ l, 0 ≤ x) → eps ≤ normSum l ∧ normSum l ≠ 0) ∧
    (∀ (m : Nat) (idxs : List Nat),
      gather_priors (List.replicate m 0) idxs = List.replicate idxs.length 0 ∧
      (gather_priors (List.replicate m 0) idxs).sum = 0) ∧
    (∀ ac : Int, 0 ≤ ac → ((ac : ℚ) + eps) ≠ 0) := by
  refine ⟨?_, ?_, ?_⟩
  · intro l h
    have h1 : eps ≤ normSum l := le_foldl_add l eps h
    have h2 : (0 : ℚ) < eps := by norm_num [eps]
    exact ⟨h1, by linarith⟩
  · intro m idxs
    have hz : (idxs.map fun index => (List.replicate m (0 : ℚ)).getD index 0)
        = List.replicate idxs.length 0 := by
      rw [List.eq_replicate_iff]
      refine ⟨by simp, ?_⟩
      intro b hb
      rw [List.mem_map] at hb
      obtain ⟨i, _, hi⟩ := hb
      rw [← hi]
      rcases Nat.lt_or_ge i m with h | h
      · rw [List.getD_eq_getElem?_getD, List.getElem?_replicate, if_pos h]; rfl
      · rw [List.getD_eq_getElem?_getD, List.getElem?_eq_none (by simpa using h)]; rfl
    constructor
    · rw [gather_priors, hz, normalize, List.map_replicate, zero_div]
    · rw [gather_priors, hz, normalize, List.map_replicate, zero_div, List.sum_replicate,
        smul_zero]
  · intro ac hac
    have h2 : (0 : ℚ) < eps := by norm_num [eps]
    have h3 : (0 : ℚ) ≤ (ac : ℚ) := by exact_mod_cast hac
    linarith

/-- `prune(index)` preserves the relativized invariant, marks its entry and
is monotone on marks, given the `prune()` bundle at the same fuel. -/
theorem atOK_of_fullOK (f : Nat) (hf : FullOK f) : AtOK f := by
  intro d g n idx pend hInv hn hidx hdn
  have hshape := sameShape_pruneAtStep g n idx
  have hmark := pruneAtStep_marked g n idx hn hidx
  have hmono := pruneAtStep_mono g n idx
  have hXn : InvXn d (pruneAtStep g n idx) pend n := by
    by_cases hpr : (nodeAt g n).pruned.getD idx false = true
    · have hstep : pruneAtStep g n idx = g := by
        unfold pruneAtStep
        rw [if_pos hpr]
      rw [hstep]
      intro m hm
      obtain ⟨s, e, c⟩ := hInv m hm
      exact ⟨s, e, fun _ => c⟩
    · intro m hm
      have hm' : m < g.length := by rw [hshape.1] at hm; exact hm
      obtain ⟨s, e, c⟩ := hInv m hm'
      have hstep : pruneAtStep g n idx = setNode g n
          { nodeAt g n with
            pruned := (nodeAt g n).pruned.set idx true,
            num_unpruned_actions := (nodeAt g n).num_unpruned_actions - 1 } := by
        unfold pruneAtStep
        rw [if_neg hpr]
      refine ⟨?_, edgesOK_of_sameShape d m hshape e, ?_⟩
      · by_cases hmn : m = n
        · subst hmn
          rw [hstep, nodeAt_setNode_self _ _ _ hn]
          show (nodeAt g m).num_unpruned_actions - 1
            = countFalse ((nodeAt g m).pruned.set idx true)
          rw [countFalse_set_true _ _ hidx (by simpa using hpr)]
          rw [statOK] at s
          omega
        · rw [hstep, nodeAt_setNode_ne _ _ _ _ hmn]
          exact s
      · intro hmn hnum pi hpi
        have hmm : nodeAt (pruneAtStep g n idx) m = nodeAt g m := by
          rw [hstep, nodeAt_setNode_ne _ _ _ _ hmn]
        rw [hmm] at hnum hpi
        rcases c hnum pi hpi with hc | hc
        · exact Or.inl (hmono _ _ hc)
        · exact Or.inr hc
  by_cases h0 : (nodeAt (pruneAtStep g n idx) n).num_unpruned_actions = 0
  · rw [pruneAt, if_pos h0]
    have hn' : n < (pruneAtStep g n idx).length := by rw [hshape.1]; exact hn
    obtain ⟨hI, hnum0, hcf0, hmono2⟩ := hf d (pruneAtStep g n idx) n pend hXn hn' hdn
    exact ⟨hI, hmono2 _ _ hmark, fun m j hm => hmono2 _ _ (hmono _ _ hm)⟩
  · rw [pruneAt, if_neg h0]
    refine ⟨?_, hmark, hmono⟩
    intro m hm
    obtain ⟨s, e, c⟩ := hXn m hm
    refine ⟨s, e, ?_⟩
    intro hnum pi hpi
    by_cases hmn : m = n
    · subst hmn
      exact absurd hnum h0
    · exact c hmn hnum pi hpi

/-- The parent loop discharges its pending obligations, given the
`prune(index)` bundle at the same fuel. -/
theorem parOK_of_atOK (f : Nat) (ha : AtOK f) : ParOK f := by
  intro d g n0 ps
  induction ps generalizing g with
  | nil =>
    intro pend hInv _
    simp only [pruneParents]
    refine ⟨?_, fun m j h => h⟩
    simpa using hInv
  | cons pi rest ih =>
    intro pend hInv hb
    obtain ⟨b1, b2, b3⟩ := hb pi (by simp)
    obtain ⟨hI1, hm1, hmono1⟩ :=
      ha d g pi.1 pi.2 (pend ++ (pi :: rest).map fun q => (n0, q.1, q.2)) hInv b1 b2 b3
    have hshape2 : SameShape g (pruneAt f g pi.1 pi.2) := shape_at f g pi.1 pi.2
    have hI2 : InvX d (pruneAt f g pi.1 pi.2)
        (pend ++ rest.map fun q => (n0, q.1, q.2)) := by
      intro m hm
      obtain ⟨s, e, c⟩ := hI1 m hm
      refine ⟨s, e, ?_⟩
      intro hnum q hq
      rcases c hnum q hq with hc | hc
      · exact Or.inl hc
      · rw [List.mem_append] at hc
        rcases hc with hc | hc
        · exact Or.inr (List.mem_append.mpr (Or.inl hc))
        · rw [List.map_cons, List.mem_cons] at hc
          rcases hc with hc | hc
          · obtain ⟨hm0, hq1, hq2⟩ : m = n0 ∧ q.1 = pi.1 ∧ q.2 = pi.2 := by
              simpa [Prod.ext_iff] using hc
            exact Or.inl (by rw [hq1, hq2]; exact hm1)
          · exact Or.inr (List.mem_append.mpr (Or.inr hc))
    have hb2 : ∀ q ∈ rest, q.1 < (pruneAt f g pi.1 pi.2).length ∧
        q.2 < (nodeAt (pruneAt f g pi.1 pi.2) q.1).pruned.length ∧ d q.1 < f := by
      intro q hq
      obtain ⟨c1, c2, c3⟩ := hb q (by simp [hq])
      exact ⟨by rw [hshape2.1]; exact c1, by rw [(hshape2.2 q.1).2.2]; exact c2, c3⟩
    obtain ⟨hI3, hmono3⟩ := ih (pruneAt f g pi.1 pi.2) pend hI2 hb2
    simp only [pruneParents]
    exact ⟨hI3, fun m j h => hmono3 _ _ (hmono1 _ _ h)⟩

/-- The `prune()` bundle holds at fuel zero (vacuously). -/
theorem fullOK_zero : FullOK 0 := by
  intro d g n pend _ _ hdn
  exact absurd hdn (Nat.not_lt_zero _)

/-- The `prune()` bundle holds at every fuel. -/
theorem fullOK_all : ∀ f, FullOK f := by
  intro f
  induction f with
  | zero => exact fullOK_zero
  | succ f ih =>
    have hPar := parOK_of_atOK f (atOK_of_fullOK f ih)
    intro d g n pend hInv hn hdn
    simp only [pruneFull]
    have hshape1 : SameShape g (setNode g n (markAllPruned (nodeAt g n))) :=
      sameShape_markAll g n
    have hmono1 := markAll_mono g n
    have hI1 : InvX d (setNode g n (markAllPruned (nodeAt g n)))
        (pend ++ (zipPar (nodeAt g n)).map fun q => (n, q.1, q.2)) := by
      intro m hm
      have hm' : m < g.length := by rw [hshape1.1] at hm; exact hm
      obtain ⟨s, e, c⟩ := hInv m hm'
      refine ⟨?_, edgesOK_of_sameShape d m hshape1 e, ?_⟩
      · by_cases hmn : m = n
        · subst hmn
          rw [nodeAt_setNode_self _ _ _ hn]
          show (markAllPruned (nodeAt g m)).num_unpruned_actions
            = countFalse (markAllPruned (nodeAt g m)).pruned
          simp only [markAllPruned]
          rw [countFalse_map_true]
        · rw [nodeAt_setNode_ne _ _ _ _ hmn]
          exact s
      · intro hnum q hq
        by_cases hmn : m = n
        · subst hmn
          rw [nodeAt_setNode_self _ _ _ hn] at hq
          have hq' : q ∈ zipPar (nodeAt g m) := by
            simpa [zipPar, markAllPruned] using hq
          exact Or.inr (List.mem_append.mpr (Or.inr (List.mem_map.mpr ⟨q, hq', rfl⟩)))
        · rw [nodeAt_setNode_ne _ _ _ _ hmn] at hnum hq
          rcases c hmn hnum q hq with hc | hc
          · exact Or.inl (hmono1 _ _ hc)
          · exact Or.inr (List.mem_append.mpr (Or.inl hc))
    have hb1 : ∀ q ∈ zipPar (nodeAt g n),
        q.1 < (setNode g n (markAllPruned (nodeAt g n))).length ∧
        q.2 < (nodeAt (setNode g n (markAllPruned (nodeAt g n))) q.1).pruned.length ∧
        d q.1 < f := by
      intro q hq
      obtain ⟨c1, c2, c3⟩ := (hInv n hn).2.1 q hq
      exact ⟨by rw [hshape1.1]; exact c1, by rw [(hshape1.2 q.1).2.2]; exact c2, by omega⟩
    obtain ⟨hI2, hmono2⟩ := hPar d _ n (zipPar (nodeAt g n)) pend hI1 hb1
    have hshape2 : SameShape (setNode g n (markAllPruned (nodeAt g n)))
        (pruneParents f (setNode g n (markAllPruned (nodeAt g n))) (zipPar (nodeAt g n))) :=
      shape_parents f _ _
    have hnn : n < (pruneParents f (setNode g n (markAllPruned (nodeAt g n)))
        (zipPar (nodeAt g n))).length := by
      rw [hshape2.1, hshape1.1]
      exact hn
    have hcf : countFalse (nodeAt (pruneParents f (setNode g n (markAllPruned (nodeAt g n)))
        (zipPar (nodeAt g n))) n).pruned = 0 := by
      rw [countFalse_eq_zero_iff]
      intro j hj
      rw [(hshape2.2 n).2.2, nodeAt_setNode_self _ _ _ hn] at hj
      have hm1 : marked (setNode g n (markAllPruned (nodeAt g n))) n j := by
        show (nodeAt (setNode g n (markAllPruned (nodeAt g n))) n).pruned.getD j false = true
        rw [nodeAt_setNode_self _ _ _ hn]
        simp only [markAllPruned] at hj ⊢
        exact getD_map_true _ _ (by simpa using hj)
      exact hmono2 n j hm1
    have hnum : (nodeAt (pruneParents f (setNode g n (markAllPruned (nodeAt g n)))
        (zipPar (nodeAt g n))) n).num_unpruned_actions = 0 := by
      have s := (hI2 n hnn).1
      rw [statOK] at s
      rw [s, hcf]
    exact ⟨hI2, hnum, hcf, fun m j h => hmono2 _ _ (hmono1 _ _ h)⟩

/-- The `prune(index)` bundle holds at every fuel. -/
theorem atOK_all (f : Nat) : AtOK f := atOK_of_fullOK f (fullOK_all f)

/-- Stability of `prune(index)` on marked entries, from stability of
`prune()` at the same fuel. -/
theorem sAtOK_of_sFullOK (f : Nat) (hs : SFullOK f) : SAtOK f := by
  intro d g n idx hInv hn hdn hm
  have hm' : (nodeAt g n).pruned.getD idx false = true := hm
  have hstep : pruneAtStep g n idx = g := by
    unfold pruneAtStep
    rw [if_pos hm']
  rw [pruneAt, hstep]
  by_cases h0 : (nodeAt g n).num_unpruned_actions = 0
  · rw [if_pos h0]
    exact hs d g n hInv hn hdn h0
  · rw [if_neg h0]

/-- Stability of the parent loop over marked entries. -/
theorem sParOK_of_sAtOK (f : Nat) (hs : SAtOK f) : SParOK f := by
  intro d g ps hInv
  induction ps with
  | nil =>
    intro _
    simp only [pruneParents]
  | cons pi rest ih =>
    intro hb
    obtain ⟨b1, b3, bm⟩ := hb pi (by simp)
    simp only [pruneParents]
    rw [hs d g pi.1 pi.2 hInv b1 b3 bm]
    exact ih fun q hq => hb q (by simp [hq])

/-- Stability of `prune()` on fully pruned nodes, at every fuel. -/
theorem sFullOK_all : ∀ f, SFullOK f := by
  intro f
  induction f with
  | zero =>
    intro d g n _ _ hdn _
    exact absurd hdn (Nat.not_lt_zero _)
  | succ f ih =>
    have hsPar := sParOK_of_sAtOK f (sAtOK_of_sFullOK f ih)
    intro d g n hInv hn hdn h0
    simp only [pruneFull]
    have hs := (hInv n hn).1
    rw [statOK] at hs
    have hcf : countFalse (nodeAt g n).pruned = 0 := by omega
    have hmark : markAllPruned (nodeAt g n) = nodeAt g n := by
      unfold markAllPruned
      rw [map_true_eq_self _ hcf, ← h0]
    rw [hmark]
    have hset : setNode g n (nodeAt g n) = g := set_getD_self g n _ hn
    rw [hset]
    apply hsPar d g (zipPar (nodeAt g n)) hInv
    intro q hq
    obtain ⟨c1, c2, c3⟩ := (hInv n hn).2.1 q hq
    have hmq : marked g q.1 q.2 := by
      rcases (hInv n hn).2.2 h0 q hq with hc | hc
      · exact hc
      · exact absurd hc (List.not_mem_nil _)
    exact ⟨c1, by omega, hmq⟩

/-- Unfolding `pruneCalls` over a cons. -/
theorem pruneCalls_cons (f : Nat) (g : Graph) (c : Nat × Nat) (rest : List (Nat × Nat)) :
    pruneCalls f g (c :: rest) = pruneCalls f (pruneAt f g c.1 c.2) rest := by
  simp [pruneCalls]

/-- Any sequence of in-range `prune(index)` calls preserves the pruning
invariant. -/
theorem pruneCalls_inv (d : Nat → Nat) (f : Nat) :
    ∀ (calls : List (Nat × Nat)) (g : Graph), PruneInv d g →
    (∀ c ∈ calls, c.1 < g.length ∧ c.2 < (nodeAt g c.1).pruned.length ∧ d c.1 < f) →
    PruneInv d (pruneCalls f g calls) := by
  intro calls
  induction calls with
  | nil =>
    intro g h _
    simpa [pruneCalls] using h
  | cons c rest ih =>
    intro g hInv hb
    obtain ⟨b1, b2, b3⟩ := hb c (by simp)
    have h1 := atOK_all f d g c.1 c.2 [] hInv b1 b2 b3
    have hshape := shape_at f g c.1 c.2
    rw [pruneCalls_cons]
    apply ih _ h1.1
    intro q hq
    obtain ⟨c1, c2, c3⟩ := hb q (by simp [hq])
    exact ⟨by rw [hshape.1]; exact c1, by rw [(hshape.2 q.1).2.2]; exact c2, c3⟩

/-- On an invariant-satisfying graph, `prune(index)` is idempotent. -/
theorem pruneAt_idem (d : Nat → Nat) (f : Nat) (g : Graph) (n idx : Nat)
    (hInv : PruneInv d g) (hn : n < g.length) (hidx : idx < (nodeAt g n).pruned.length)
    (hdn : d n < f) :
    pruneAt f (pruneAt f g n idx) n idx = pruneAt f g n idx := by
  obtain ⟨hI, hm, _⟩ := atOK_all f d g n idx [] hInv hn hidx hdn
  have hshape := shape_at f g n idx
  exact sAtOK_of_sFullOK f (sFullOK_all f) d _ n idx hI (by rw [hshape.1]; exact hn) hdn hm

/-- Claim C4: on a graph satisfying the pruning invariant (per-node
bookkeeping `num_unpruned_actions == count(!pruned[i])`, well-formed acyclic
parent links measured by `d`, and "fully pruned implies every parent is
marked at its parent index"), `prune(index)` is idempotent, and the
invariant — established by the recursive upward propagation of `prune()` —
is preserved by any sequence of in-range `prune(index)` calls (with fuel
`f` exceeding each target's depth, so the model runs the full C++
recursion). -/
theorem c4_prune_idempotent_and_invariant (d : Nat → Nat) (f : Nat) (g : Graph)
    (n idx : Nat) (calls : List (Nat × Nat))
    (hInv : PruneInv d g) (hn : n < g.length)
    (hidx : idx < (nodeAt g n).pruned.length) (hdn : d n < f)
    (hcalls : ∀ c ∈ calls,
      c.1 < g.length ∧ c.2 < (nodeAt g c.1).pruned.length ∧ d c.1 < f) :
    pruneAt f (pruneAt f g n idx) n idx = pruneAt f g n idx ∧
    PruneInv d (pruneCalls f g calls) :=
  ⟨pruneAt_idem d f g n idx hInv hn hidx hdn, pruneCalls_inv d f calls g hInv hcalls⟩

/-- Witness for C4 on the two-node graph `c4Graph`. -/
theorem c4_witness :
    (PruneInv (fun k => k) c4Graph ∧ 1 < c4Graph.length ∧
      0 < (nodeAt c4Graph 1).pruned.length ∧ (fun k => k) 1 < 5 ∧
      (∀ c ∈ [((0 : Nat), (0 : Nat))], c.1 < c4Graph.length ∧
        c.2 < (nodeAt c4Graph c.1).pruned.length ∧ (fun k => k) c.1 < 5)) ∧
    (pruneAt 5 (pruneAt 5 c4Graph 1 0) 1 0 = pruneAt 5 c4Graph 1 0 ∧
      PruneInv (fun k => k) (pruneCalls 5 c4Graph [(0, 0)])) := by
  have hInv : PruneInv (fun k => k) c4Graph := by
    unfold PruneInv InvX statOK edgesOK marked zipPar countFalse
    intro n hn
    simp only [c4Graph, List.length_cons, List.length_nil] at hn
    interval_cases n
    · exact ⟨by decide, by decide, by decide⟩
    · exact ⟨by decide, by decide, by decide⟩
  have hcalls : ∀ c ∈ [((0 : Nat), (0 : Nat))], c.1 < c4Graph.length ∧
      c.2 < (nodeAt c4Graph c.1).pruned.length ∧ (fun k => k) c.1 < 5 := by
    decide
  exact ⟨⟨hInv, by decide, by decide, by decide, hcalls⟩,
    c4_prune_idempotent_and_invariant (fun k => k) 5 c4Graph 1 0 [(0, 0)]
      hInv (by decide) (by decide) (by decide) hcalls⟩

/-- Witness for C10 at the all-zero one-element prior vector and a zero
action count. -/
theorem c10_witness :
    ((∀ x ∈ [(0 : ℚ)], 0 ≤ x) ∧ eps ≤ normSum [0] ∧ normSum [0] ≠ 0) ∧
    (gather_priors (List.replicate 1 0) [0] = List.replicate 1 0 ∧
      (gather_priors (List.replicate 1 0) [0]).sum = 0) ∧
    ((0 : Int) ≤ 0 ∧ (((0 : Int) : ℚ) + eps) ≠ 0) :=
  ⟨⟨by simp, c10_no_division_by_zero.1 [0] (by simp)⟩,
    c10_no_division_by_zero.2.1 1 [0],
    ⟨by decide, c10_no_division_by_zero.2.2 0 (by decide)⟩⟩

/-- Helper: `find?` passes over a prefix with no match. -/
theorem find?_append_none {α : Type} (l l2 : List α) (p : α → Bool) (h : l.find? p = none) :
    (l ++ l2).find? p = l2.find? p := by
  induction l with
  | nil => simp
  | cons x xs ih =>
    cases hx : p x with
    | true =>
      rw [List.find?_cons_of_pos _ hx] at h
      cases h
    | false =>
      rw [List.find?_cons_of_neg _ (by simp [hx])] at h
      rw [List.cons_append, List.find?_cons_of_neg _ (by simp [hx])]
      exact ih h

/-- Claim C6: `get_tree_node(words)` is idempotent — a second call with the
same word sequence returns the identical canonical node and leaves the
transposition table (hence its node count) unchanged; the second call's
freshly constructed candidate is discarded. -/
theorem c6_get_tree_node_idem (s : TState) (ws : List Nat) :
    (get_tree_node (get_tree_node s ws).2 ws).1 = (get_tree_node s ws).1 ∧
    (get_tree_node (get_tree_node s ws).2 ws).2.table = (get_tree_node s ws).2.table := by
  cases h : s.table.entries.find? fun e => e.1 == ws with
  | some e => simp [get_tree_node, ttable_get, h]
  | none =>
    have h2 : ((s.table.entries ++ [(ws, s.next_id)]).find? fun e => e.1 == ws)
        = some (ws, s.next_id) := by
      rw [find?_append_none _ _ _ h]
      simp
    simp [get_tree_node, ttable_get, h, h2]

/-- Claim C8: an action id outside `[0, action_space.size())` makes
`get_action` return an error (a raised `ValueError`) with the action-space
state unchanged, and `get_edge(action_id)` on a node that has not acted
with that id returns an error with the node state unchanged. -/
theorem c8_error_handling (s : ASpace) (t : PyTN) (aid bid : Int)
    (hout : (s.actions.length : Int) ≤ aid ∨ aid < 0)
    (hnot : has_acted t bid = false) :
    pyas_get_action s aid = (Except.error ("Action id out of bound."), s) ∧
    pytn_get_edge t bid = (Except.error ("Action has not been explored."), t) := by
  constructor
  · unfold pyas_get_action
    rw [if_pos hout]
  · unfold pytn_get_edge
    rw [if_neg (by simp [hnot])]

/-- Witness for C8 on an empty action space and an unexplored node. -/
theorem c8_witness :
    ((((ASpace.mk []).actions.length : Int) ≤ 5 ∨ (5 : Int) < 0) ∧
      has_acted (PyTN.mk [] false) 3 = false) ∧
    (pyas_get_action (ASpace.mk []) 5
        = (Except.error ("Action id out of bound."), ASpace.mk []) ∧
      pytn_get_edge (PyTN.mk [] false) 3
        = (Except.error ("Action has not been explored."), PyTN.mk [] false)) :=
  ⟨⟨by decide, by decide⟩,
    c8_error_handling (ASpace.mk []) (PyTN.mk [] false) 5 3 (by decide) (by decide)⟩

/-- Claim C9: `connect(index, child)` is a no-op when `children[index]` is
already non-null (the whole graph is unchanged); when it is null it sets
`children[index]` to the child and appends exactly one entry to the child's
`parents` and `parent_indices`, preserving
`len(parents) == len(parent_indices)` and touching no other node. -/
theorem c9_connect (g : Graph) (p index c : Nat)
    (hp : p < g.length) (hc : c < g.length)
    (hidx : index < (nodeAt g p).children.length) :
    (((nodeAt g p).children.getD index none).isSome = true → connect g p index c = g) ∧
    ((nodeAt g p).children.getD index none = none →
      (connect g p index c).length = g.length ∧
      (nodeAt (connect g p index c) p).children
        = (nodeAt g p).children.set index (some c) ∧
      (nodeAt (connect g p index c) c).parents = (nodeAt g c).parents ++ [p] ∧
      (nodeAt (connect g p index c) c).parent_indices
        = (nodeAt g c).parent_indices ++ [index] ∧
      ((nodeAt g c).parents.length = (nodeAt g c).parent_indices.length →
        (nodeAt (connect g p index c) c).parents.length
          = (nodeAt (connect g p index c) c).parent_indices.length) ∧
      (∀ m, m ≠ p → m ≠ c → nodeAt (connect g p index c) m = nodeAt g m)) := by
  constructor
  · intro h
    unfold connect
    rw [if_neg (by intro heq; rw [heq] at h; cases h)]
  · intro h
    have hconn : connect g p index c
        = setNode (setNode g p
            { nodeAt g p with children := (nodeAt g p).children.set index (some c) }) c
          { nodeAt (setNode g p
              { nodeAt g p with children := (nodeAt g p).children.set index (some c) }) c with
            parents := (nodeAt (setNode g p
              { nodeAt g p with
                children := (nodeAt g p).children.set index (some c) }) c).parents
              ++ [p],
            parent_indices := (nodeAt (setNode g p
              { nodeAt g p with
                children := (nodeAt g p).children.set index (some c) }) c).parent_indices
              ++ [index] } := by
      unfold connect
      rw [if_pos h]
    have hg1p : nodeAt (setNode g p
        { nodeAt g p with children := (nodeAt g p).children.set index (some c) }) p
        = { nodeAt g p with children := (nodeAt g p).children.set index (some c) } :=
      nodeAt_setNode_self _ _ _ hp
    have hg1len : (setNode g p
        { nodeAt g p with children := (nodeAt g p).children.set index (some c) }).length
        = g.length := length_setNode _ _ _
    have hg1cpar : (nodeAt (setNode g p
        { nodeAt g p with children := (nodeAt g p).children.set index (some c) }) c).parents
        = (nodeAt g c).parents := by
      by_cases hpc : c = p
      · subst hpc
        rw [hg1p]
      · rw [nodeAt_setNode_ne _ _ _ _ hpc]
    have hg1cpidx : (nodeAt (setNode g p
        { nodeAt g p with
          children := (nodeAt g p).children.set index (some c) }) c).parent_indices
        = (nodeAt g c).parent_indices := by
      by_cases hpc : c = p
      · subst hpc
        rw [hg1p]
      · rw [nodeAt_setNode_ne _ _ _ _ hpc]
    have hcg1 : c < (setNode g p
        { nodeAt g p with children := (nodeAt g p).children.set index (some c) }).length := by
      rw [hg1len]
      exact hc
    have hg2c := nodeAt_setNode_self (setNode g p
        { nodeAt g p with children := (nodeAt g p).children.set index (some c) }) c
      { nodeAt (setNode g p
          { nodeAt g p with children := (nodeAt g p).children.set index (some c) }) c with
        parents := (nodeAt (setNode g p
          { nodeAt g p with children := (nodeAt g p).children.set index (some c) }) c).parents
          ++ [p],
        parent_indices := (nodeAt (setNode g p
          { nodeAt g p with
            children := (nodeAt g p).children.set index (some c) }) c).parent_indices
          ++ [index] } hcg1
    refine ⟨?_, ?_, ?_, ?_, ?_, ?_⟩
    · rw [hconn, length_setNode, hg1len]
    · by_cases hpc : p = c
      · subst hpc
        rw [hconn, hg2c, hg1p]
      · rw [hconn, nodeAt_setNode_ne _ _ _ _ hpc, hg1p]
    · rw [hconn, hg2c]
      show (nodeAt (setNode g p _) c).parents ++ [p] = _
      rw [hg1cpar]
    · rw [hconn, hg2c]
      show (nodeAt (setNode g p _) c).parent_indices ++ [index] = _
      rw [hg1cpidx]
    · intro hlen
      rw [hconn, hg2c]
      show ((nodeAt (setNode g p _) c).parents ++ [p]).length
        = ((nodeAt (setNode g p _) c).parent_indices ++ [index]).length
      rw [hg1cpar, hg1cpidx]
      simp [hlen]
    · intro m hmp hmc
      rw [hconn, nodeAt_setNode_ne _ _ _ _ hmc, nodeAt_setNode_ne _ _ _ _ hmp]

/-- Witness for C9 on the two-node graph `c4Graph`: node 1's child slot is
free, so `connect` links it to node 0 and records the back-edge. -/
theorem c9_witness :
    (1 < c4Graph.length ∧ 0 < c4Graph.length ∧ 0 < (nodeAt c4Graph 1).children.length ∧
      (nodeAt c4Graph 1).children.getD 0 none = none) ∧
    ((connect c4Graph 1 0 0).length = c4Graph.length ∧
      (nodeAt (connect c4Graph 1 0 0) 1).children
        = (nodeAt c4Graph 1).children.set 0 (some 0) ∧
      (nodeAt (connect c4Graph 1 0 0) 0).parents = (nodeAt c4Graph 0).parents ++ [1] ∧
      (nodeAt (connect c4Graph 1 0 0) 0).parent_indices
        = (nodeAt c4Graph 0).parent_indices ++ [0]) := by
  have h := c9_connect c4Graph 1 0 0 (by decide) (by decide) (by decide)
  obtain ⟨h1, h2, h3, h4, _⟩ := h.2 (by decide)
  exact ⟨⟨by decide, by decide, by decide, by decide⟩, h1, h2, h3, h4⟩

/-- Helper: a max-fold never drops below its initial value. -/
theorem foldl_max_le_init (vocab : List (List Int)) :
    ∀ a : Nat, a ≤ vocab.foldl (fun m row => max m row.length) a := by
  induction vocab with
  | nil => intro a; exact Nat.le_refl a
  | cons r rs ih =>
    intro a
    exact le_trans (Nat.le_max_left a r.length) (ih (max a r.length))

/-- Helper: a max-fold dominates every member's length. -/
theorem mem_le_foldl_max (vocab : List (List Int)) :
    ∀ (a : Nat) (row : List Int), row ∈ vocab →
      row.length ≤ vocab.foldl (fun m row => max m row.length) a := by
  induction vocab with
  | nil =>
    intro a row h
    simp at h
  | cons r rs ih =>
    intro a row h
    rcases List.mem_cons.mp h with h | h
    · subst h
      exact le_trans (Nat.le_max_right a row.length) (foldl_max_le_init rs _)
    · exact ih _ row h

/-- Helper: every row of the vocabulary fits in the padded width. -/
theorem length_le_maxRowLen (vocab : List (List Int)) (i : Nat) (hi : i < vocab.length) :
    (vocab.getD i []).length ≤ maxRowLen vocab := by
  have hmem : vocab.getD i [] ∈ vocab := by
    rw [List.getD_eq_getElem?_getD, List.getElem?_eq_getElem hi]
    exact List.getElem_mem hi
  exact mem_le_foldl_max vocab 0 _ hmem

/-- Helper: reading a mapped list below its length. -/
theorem getD_map_of_lt {α β : Type} (f : α → β) (l : List α) (i : Nat) (d : β) (d' : α)
    (h : i < l.length) : (l.map f).getD i d = f (l.getD i d') := by
  rw [List.getD_eq_getElem?_getD, List.getD_eq_getElem?_getD, List.getElem?_map,
    List.getElem?_eq_getElem h]
  rfl

/-- Claim C7: building the vocabulary from an `[N, M]` id array with a
`lengths` vector (cells beyond `lengths[i]` equal to `PAD`) via `np2vocab`
and reading it back via `vocab2np` yields an `[N, M']` array whose row `i`
starts with the original `lengths[i]` cells, is `PAD` beyond them, with
`M' ≥ max(lengths)`. -/
theorem c7_np2vocab_vocab2np (arr : List (List Int)) (lengths : List Nat) (n M : Nat)
    (pad : Int)
    (han : arr.length = n) (hln : lengths.length = n)
    (hrow : ∀ i, i < n → (arr.getD i []).length = M)
    (hlen : ∀ i, i < n → lengths.getD i 0 ≤ M)
    (hpad : ∀ i, i < n → ∀ j, j < M → lengths.getD i 0 ≤ j → (arr.getD i []).getD j 0 = pad) :
    (vocab2np (np2vocab arr lengths n) pad).length = n ∧
    (∀ i, i < n → ((vocab2np (np2vocab arr lengths n) pad).getD i []).length
        = maxRowLen (np2vocab arr lengths n)) ∧
    (∀ i, i < n → ∀ j, j < lengths.getD i 0 →
      ((vocab2np (np2vocab arr lengths n) pad).getD i []).getD j 0
        = (arr.getD i []).getD j 0) ∧
    (∀ i, i < n → ∀ j, j < maxRowLen (np2vocab arr lengths n) → lengths.getD i 0 ≤ j →
      ((vocab2np (np2vocab arr lengths n) pad).getD i []).getD j 0 = pad) ∧
    (∀ i, i < n → lengths.getD i 0 ≤ maxRowLen (np2vocab arr lengths n)) := by
  have hVlen : (np2vocab arr lengths n).length = n := by simp [np2vocab]
  have hVrow : ∀ i, i < n → (np2vocab arr lengths n).getD i []
      = (List.range (lengths.getD i 0)).map fun j => (arr.getD i []).getD j 0 := by
    intro i hi
    unfold np2vocab
    rw [getD_range_map, if_pos hi]
  have hVrowlen : ∀ i, i < n →
      ((np2vocab arr lengths n).getD i []).length = lengths.getD i 0 := by
    intro i hi
    rw [hVrow i hi]
    simp
  have hle : ∀ i, i < n → lengths.getD i 0 ≤ maxRowLen (np2vocab arr lengths n) := by
    intro i hi
    rw [← hVrowlen i hi]
    exact length_le_maxRowLen _ i (by omega)
  have hOrow : ∀ i, i < n → (vocab2np (np2vocab arr lengths n) pad).getD i []
      = (List.range (maxRowLen (np2vocab arr lengths n))).map fun j =>
          if j < ((np2vocab arr lengths n).getD i []).length then
            ((np2vocab arr lengths n).getD i []).getD j 0
          else pad := by
    intro i hi
    unfold vocab2np
    exact getD_map_of_lt _ _ i _ [] (by omega)
  refine ⟨by simp [vocab2np, hVlen], ?_, ?_, ?_, hle⟩
  · intro i hi
    rw [hOrow i hi]
    simp
  · intro i hi j hj
    rw [hOrow i hi, getD_range_map,
      if_pos (lt_of_lt_of_le hj (hle i hi)),
      if_pos (by rw [hVrowlen i hi]; exact hj),
      hVrow i hi, getD_range_map, if_pos hj]
  · intro i hi j hj hge
    rw [hOrow i hi, getD_range_map, if_pos hj,
      if_neg (by rw [hVrowlen i hi]; omega)]

/-- Witness for C7 at the concrete array `[[1, 2, 9]]` with lengths `[2]`
and `PAD = 9`. -/
theorem c7_witness :
    (([[1, 2, 9]] : List (List Int)).length = 1 ∧ ([2] : List Nat).length = 1 ∧
      (∀ i, i < 1 → (([[1, 2, 9]] : List (List Int)).getD i []).length = 3) ∧
      (∀ i, i < 1 → ([2] : List Nat).getD i 0 ≤ 3) ∧
      (∀ i, i < 1 → ∀ j, j < 3 → ([2] : List Nat).getD i 0 ≤ j →
        (([[1, 2, 9]] : List (List Int)).getD i []).getD j 0 = 9)) ∧
    ((vocab2np (np2vocab [[1, 2, 9]] [2] 1) 9).length = 1 ∧
      (∀ i, i < 1 → ((vocab2np (np2vocab [[1, 2, 9]] [2] 1) 9).getD i []).length
          = maxRowLen (np2vocab [[1, 2, 9]] [2] 1)) ∧
      (∀ i, i < 1 → ∀ j, j < ([2] : List Nat).getD i 0 →
        ((vocab2np (np2vocab [[1, 2, 9]] [2] 1) 9).getD i []).getD j 0
          = (([[1, 2, 9]] : List (List Int)).getD i []).getD j 0) ∧
      (∀ i, i < 1 → ∀ j, j < maxRowLen (np2vocab [[1, 2, 9]] [2] 1) →
          ([2] : List Nat).getD i 0 ≤ j →
        ((vocab2np (np2vocab [[1, 2, 9]] [2] 1) 9).getD i []).getD j 0 = 9) ∧
      (∀ i, i < 1 → ([2] : List Nat).getD i 0 ≤ maxRowLen (np2vocab [[1, 2, 9]] [2] 1))) :=
  ⟨⟨by decide, by decide, by decide, by decide, by decide⟩,
    c7_np2vocab_vocab2np [[1, 2, 9]] [2] 1 3 9 (by decide) (by decide) (by decide)
      (by decide) (by decide)⟩

end ASLI
